import Mathlib

/-!
Verification development for the chick onset/offset detection project.

The definitions below are shallow embeddings of the Python sources:

* `src/mir_eval_modified/offset.py` — `validate` and `f_measure`
  (offset scoring with the duration-relative second pass);
* `src/_old__algorithms.py` — `double_onsets_correction` and the core
  detection loop of `double_thr_ons_detect`.

Event times are modelled as rationals (`ℚ`).  The helper module
`util_mod` (functions `match_events` and `validate_events`) is not part
of the sources, so those two functions are modelled from the design
specification, as indicated in their doc comments.
-/

namespace ChicksOnset

/-- Result record mirroring the 6-tuple returned by `f_measure` in
`src/mir_eval_modified/offset.py`:
`(f_measure, precision, recall, TP, FP, FN)`. -/
structure FMeasureResult where
  fmeasure : ℚ
  precision : ℚ
  recall' : ℚ
  TP : List ℚ
  FP : List ℚ
  FN : List ℚ
deriving DecidableEq

/-- `MAX_TIME = 30000.` from `offset.py`. -/
def MAX_TIME : ℚ := 30000

/-- Absolute value on ℚ, written out with `if` so that concrete runs
reduce; models Python's `abs`. -/
def absQ (x : ℚ) : ℚ := if x < 0 then -x else x

lemma absQ_eq_abs (x : ℚ) : absQ x = |x| := by
  unfold absQ
  rcases lt_or_le x 0 with h | h
  · rw [if_pos h, abs_of_neg h]
  · rw [if_neg (not_lt.mpr h), abs_of_nonneg h]

/-- Choice step used by the greedy matcher: keep the candidate whose
time difference to the reference event is strictly smaller (earlier
index wins ties). -/
def pickCloser (r : ℚ) (est : List ℚ) : Option ℕ → ℕ → Option ℕ
  | none, j => some j
  | some k, j => if absQ (r - est.getD j 0) < absQ (r - est.getD k 0) then some j else some k

/-- Modelled from the spec: part of `util_mod.match_events`, which is
absent from the sources.  Among the estimated indices that are not yet
used and lie within `w` of the reference time `r`, return the closest
one (ties broken by earliest index), or `none` if there is none. -/
def bestCandidate (r : ℚ) (est : List ℚ) (w : ℚ) (used : List ℕ) : Option ℕ :=
  ((List.range est.length).filter
      (fun j => decide (j ∉ used) && decide (absQ (r - est.getD j 0) ≤ w))).foldl
    (pickCloser r est) none

/-- Modelled from the spec: `util_mod.match_events` is absent from the
sources.  Greedy nearest-available matching scanning the reference
sequence in order: each reference event is paired with the closest
not-yet-used estimated event within `w`; matched estimated indices are
removed from the candidate pool, so no index is matched twice. -/
def match_events (ref est : List ℚ) (w : ℚ) : List (ℕ × ℕ) :=
  (List.range ref.length).foldl
    (fun acc i =>
      match bestCandidate (ref.getD i 0) est w (acc.map Prod.snd) with
      | some j => acc ++ [(i, j)]
      | none => acc)
    []

/-- Second-pass candidate for reference index `i`: the first estimated
index `j` with `abs(ref_offset - est_offset) <= 0.5 * (ref_offset -
reference_onsets[i])`, as in the inner loop of `f_measure`
(`offset.py` lines 128–144). -/
def secondMatch (ons off est : List ℚ) (i : ℕ) : Option ℕ :=
  (List.range est.length).find?
    (fun j => decide (absQ (off.getD i 0 - est.getD j 0) ≤ (off.getD i 0 - ons.getD i 0) / 2))

/-- All pairs `(i, j)` appended by the duration-relative second pass of
`f_measure`: the outer loop enumerates every reference offset `i`, and
`break` keeps only the first qualifying estimated index `j`. -/
def secondPassHits (ons off est : List ℚ) : List (ℕ × ℕ) :=
  (List.range off.length).filterMap
    (fun i => (secondMatch ons off est i).map (fun j => (i, j)))

/-- Indices of `List.range n` not occurring in `matched`, mirroring
`set(np.arange(n)) - set(matched)` in `f_measure`. -/
def unmatchedIdx (n : ℕ) (matched : List ℕ) : List ℕ :=
  (List.range n).filter (fun j => decide (j ∉ matched))

/-- True-positive list of `f_measure`: estimated offsets selected by the
base matching, then the values appended by the second pass. -/
def tpList (ons off est : List ℚ) (w : ℚ) : List ℚ :=
  ((match_events off est w).map Prod.snd).map (fun j => est.getD j 0) ++
    (secondPassHits ons off est).map (fun p => est.getD p.2 0)

/-- False-positive list of `f_measure`: the unmatched estimated offsets
after the base matching, with the estimated offsets still unmatched
after the second pass appended (`FP = np.append(FP, ...)`). -/
def fpList (ons off est : List ℚ) (w : ℚ) : List ℚ :=
  (unmatchedIdx est.length ((match_events off est w).map Prod.snd)).map
      (fun j => est.getD j 0) ++
    (unmatchedIdx est.length
        ((match_events off est w).map Prod.snd ++ (secondPassHits ons off est).map Prod.snd)).map
      (fun j => est.getD j 0)

/-- False-negative list of `f_measure`: the unmatched reference offsets
after the base matching, with the reference offsets still unmatched
after the second pass appended (`FN = np.append(FN, ...)`). -/
def fnList (ons off est : List ℚ) (w : ℚ) : List ℚ :=
  (unmatchedIdx off.length ((match_events off est w).map Prod.fst)).map
      (fun i => off.getD i 0) ++
    (unmatchedIdx off.length
        ((match_events off est w).map Prod.fst ++ (secondPassHits ons off est).map Prod.fst)).map
      (fun i => off.getD i 0)

/-- `precision = float(len(TP)) / (len(TP) + len(FP))` recomputed after
the second pass. -/
def precisionQ (ons off est : List ℚ) (w : ℚ) : ℚ :=
  ((tpList ons off est w).length : ℚ) /
    (((tpList ons off est w).length : ℚ) + ((fpList ons off est w).length : ℚ))

/-- `recall = float(len(TP)) / (len(TP) + len(FN))` recomputed after the
second pass. -/
def recallQ (ons off est : List ℚ) (w : ℚ) : ℚ :=
  ((tpList ons off est w).length : ℚ) /
    (((tpList ons off est w).length : ℚ) + ((fnList ons off est w).length : ℚ))

/-- Shallow embedding of `f_measure` from `src/mir_eval_modified/offset.py`
(lines 102–153), after input validation: empty inputs and an empty base
matching return `(0, 0, 0, [], estimated, reference)`; otherwise the
confusion sets are assembled from the base matching and the
duration-relative second pass, and precision/recall/F-measure are
computed from their sizes. -/
def f_measure (ons off est : List ℚ) (w : ℚ) : FMeasureResult :=
  if off.length = 0 ∨ est.length = 0 then
    ⟨0, 0, 0, [], est, off⟩
  else if (match_events off est w).length = 0 then
    ⟨0, 0, 0, [], est, off⟩
  else
    ⟨2 * precisionQ ons off est w * recallQ ons off est w /
        (precisionQ ons off est w + recallQ ons off est w),
      precisionQ ons off est w, recallQ ons off est w,
      tpList ons off est w, fpList ons off est w, fnList ons off est w⟩

/-- A floating-point event time as supplied to `validate`: either a
finite value (modelled exactly as a rational) or one of the non-finite
IEEE values. -/
inductive FVal where
  | finite (q : ℚ) : FVal
  | nan : FVal
  | posInf : FVal
  | negInf : FVal
deriving DecidableEq

/-- Whether an `FVal` is a finite number. -/
def FVal.isFinite : FVal → Bool
  | .finite _ => true
  | _ => false

/-- The rational value of a finite `FVal` (non-finite values map to an
arbitrary default, only ever used after validation succeeded). -/
def FVal.toRat : FVal → ℚ
  | .finite q => q
  | _ => 0

/-- Modelled from the spec: the per-event test of
`util_mod.validate_events`, which is absent from the sources.  An event
time is invalid when it is negative, non-finite, or exceeds the maximum
horizon `m`. -/
def eventBad (m : ℚ) : FVal → Bool
  | .finite q => decide (q < 0) || decide (m < q)
  | _ => true

/-- Modelled from the spec: `util_mod.validate_events` is absent from
the sources.  Fails with `InvalidInput` when any event time is
negative, non-finite, or exceeds the maximum horizon `max_time`;
accepts the empty sequence. -/
def validate_events (events : List FVal) (max_time : ℚ) : Except String Unit :=
  if events.any (eventBad max_time) then .error "InvalidInput" else .ok ()

/-- Embedding of `validate` from `offset.py` (lines 36–54): warn (first
component) when either sequence is empty, then run `validate_events` on
the reference and then the estimated offsets against `MAX_TIME`. -/
def validate (reference_offsets estimated_offsets : List FVal) :
    List String × Except String Unit :=
  ((if reference_offsets.length = 0 then ["Reference onsets are empty."] else []) ++
      (if estimated_offsets.length = 0 then ["Estimated onsets are empty."] else []),
    match validate_events reference_offsets MAX_TIME with
    | .error e => .error e
    | .ok _ => validate_events estimated_offsets MAX_TIME)

/-- `f_measure` including its first line `validate(reference_offsets,
estimated_offsets)`: the emitted warnings are returned alongside either
the validation error or the scoring result. -/
def f_measure_checked (ons : List ℚ) (off est : List FVal) (w : ℚ) :
    List String × Except String FMeasureResult :=
  ((validate off est).1,
    match (validate off est).2 with
    | .error e => .error e
    | .ok _ => .ok (f_measure ons (off.map FVal.toRat) (est.map FVal.toRat) w))

/-- Embedding of `double_onsets_correction` from
`src/_old__algorithms.py` (lines 31–48): keep the first predicted
onset, then keep `onsets_predicted[i+1]` whenever the `i`-th entry of
`np.diff(onsets_predicted)` is at least `correction`.  An empty input
is outside the function's domain (`onsets_predicted[0]` raises), hence
the `Option`. -/
def double_onsets_correction (onsets_predicted : List ℚ) (correction : ℚ) :
    Option (List ℚ) :=
  match onsets_predicted with
  | [] => none
  | x :: rest =>
    some (((List.zipWith (fun a b => b - a) onsets_predicted rest).enum).foldl
      (fun filtered p =>
        if correction ≤ p.2 then filtered ++ [onsets_predicted.getD (p.1 + 1) 0]
        else filtered)
      [x])

/-- The inner condition of the double-threshold detector
(`_old__algorithms.py` lines 348–356): the bin must exist
(`f < spectrogram.shape[0]`), and the magnitude must exceed the high
threshold, or exceed the low threshold while being larger than both
temporal neighbours — where the left neighbour of frame `0` is the last
frame, because the source indexes `spectrogram[f, t-1]` and a Python
index of `-1` selects the last column. -/
def qualifiesBin (nBins nFrames : ℕ) (mag : ℕ → ℕ → ℚ) (lowThr highThr : ℚ)
    (t f : ℕ) : Bool :=
  decide (f < nBins) &&
    (decide (highThr < mag f t) ||
      (decide (lowThr < mag f t) &&
        decide (mag f ((t + nFrames - 1) % nFrames) < mag f t) &&
        decide (mag f (t + 1) < mag f t)))

/-- Embedding of the detection loop of `double_thr_ons_detect` from
`src/_old__algorithms.py` (lines 344–358), over an abstract magnitude
spectrogram `mag` with `nBins` frequency bins and `nFrames` time
frames: for `t in range(nFrames - 1)` and `f in range(lowBin, highBin)`
append `librosa.frames_to_time(t) = t * hop / sr` once per qualifying
`(f, t)` occurrence. -/
def double_thr_ons_detect (nBins nFrames : ℕ) (mag : ℕ → ℕ → ℚ)
    (lowBin highBin : ℕ) (lowThr highThr : ℚ) (sr hop : ℚ) : List ℚ :=
  (List.range (nFrames - 1)).flatMap (fun t =>
    ((List.range' lowBin (highBin - lowBin)).filter
        (qualifiesBin nBins nFrames mag lowThr highThr t)).map
      (fun _ => (t : ℚ) * hop / sr))

/-! ### Helper lemmas -/

lemma length_filter_split {α : Type} (l : List α) (p : α → Bool) :
    l.length = (l.filter p).length + (l.filter (fun a => !(p a))).length := by
  induction l with
  | nil => rfl
  | cons a l ih => cases h : p a <;> simp [List.filter_cons, h, ih] <;> omega

/-- Pigeonhole for the base confusion sets: the matched indices together
with the indices of `unmatchedIdx n s` cover `range n`, so `n` is at
most `s.length` plus the number of unmatched indices. -/
lemma le_length_add_unmatched (n : ℕ) (s : List ℕ) :
    n ≤ s.length + (unmatchedIdx n s).length := by
  have hsplit := length_filter_split (List.range n) (fun j => decide (j ∈ s))
  have hsub : (List.range n).filter (fun j => decide (j ∈ s)) ⊆ s := by
    intro a ha
    simpa using (List.mem_filter.mp ha).2
  have hle := ((List.nodup_range n).filter _ |>.subperm hsub).length_le
  have hun : unmatchedIdx n s = (List.range n).filter (fun j => !(decide (j ∈ s))) := by
    unfold unmatchedIdx
    exact List.filter_congr (fun x _ => by simp [decide_not])
  rw [List.length_range] at hsplit
  rw [hun]
  omega

lemma match_events_nil_left (est : List ℚ) (w : ℚ) : match_events [] est w = [] := rfl

lemma match_events_nil_right (ref : List ℚ) (w : ℚ) : match_events ref [] w = [] := by
  unfold match_events
  have h : ∀ (l : List ℕ) (acc : List (ℕ × ℕ)),
      l.foldl (fun acc i =>
        match bestCandidate (ref.getD i 0) [] w (acc.map Prod.snd) with
        | some j => acc ++ [(i, j)]
        | none => acc) acc = acc := by
    intro l
    induction l with
    | nil => intro acc; rfl
    | cons a l ih =>
      intro acc
      rw [List.foldl_cons]
      have hb : bestCandidate (ref.getD a 0) [] w (acc.map Prod.snd) = none := rfl
      rw [hb]
      exact ih acc
  exact h _ _

/-- Whenever the base matching is empty, both early returns of
`f_measure` produce the same value. -/
lemma f_measure_of_matching_nil (ons off est : List ℚ) (w : ℚ)
    (h3 : match_events off est w = []) :
    f_measure ons off est w = ⟨0, 0, 0, [], est, off⟩ := by
  unfold f_measure
  split
  · rfl
  · rw [if_pos (by simp [h3])]

/-- In the main branch, `f_measure` returns the assembled record. -/
lemma f_measure_main (ons off est : List ℚ) (w : ℚ) (h1 : off ≠ []) (h2 : est ≠ [])
    (h3 : match_events off est w ≠ []) :
    f_measure ons off est w =
      ⟨2 * precisionQ ons off est w * recallQ ons off est w /
          (precisionQ ons off est w + recallQ ons off est w),
        precisionQ ons off est w, recallQ ons off est w,
        tpList ons off est w, fpList ons off est w, fnList ons off est w⟩ := by
  unfold f_measure
  rw [if_neg (by simp [List.length_eq_zero, h1, h2]), if_neg (by simp [h3])]

lemma tpList_length_pos (ons off est : List ℚ) (w : ℚ)
    (h3 : match_events off est w ≠ []) : 0 < (tpList ons off est w).length := by
  unfold tpList
  rw [List.length_append, List.length_map, List.length_map]
  exact Nat.lt_of_lt_of_le (List.length_pos.mpr h3) (Nat.le_add_right _ _)

lemma precisionQ_pos (ons off est : List ℚ) (w : ℚ)
    (h3 : match_events off est w ≠ []) : 0 < precisionQ ons off est w := by
  have hT : (0:ℚ) < ((tpList ons off est w).length : ℚ) := by
    exact_mod_cast tpList_length_pos ons off est w h3
  exact div_pos hT (add_pos_of_pos_of_nonneg hT (Nat.cast_nonneg _))

lemma recallQ_pos (ons off est : List ℚ) (w : ℚ)
    (h3 : match_events off est w ≠ []) : 0 < recallQ ons off est w := by
  have hT : (0:ℚ) < ((tpList ons off est w).length : ℚ) := by
    exact_mod_cast tpList_length_pos ons off est w h3
  exact div_pos hT (add_pos_of_pos_of_nonneg hT (Nat.cast_nonneg _))

/-! ### Claims -/

/-- C1, counterexample: on reference onsets `[1, 3]`, reference offsets
`[1.5, 3.8]`, estimated offsets `[1.6, 5]` and window `0.05`,
`f_measure` does not return `TP = [1.6]` with precision `0.5` as the
claim states. -/
theorem c1_counterexample :
    ¬ ((f_measure [1, 3] [3/2, 19/5] [8/5, 5] (1/20)).TP = [8/5] ∧
        (f_measure [1, 3] [3/2, 19/5] [8/5, 5] (1/20)).precision = 1/2) := by
  with_unfolding_all decide

/-- C1, amended: on that input the base matching is empty, so
`f_measure` returns `(0, 0, 0, [], [1.6, 5], [1.5, 3.8])` immediately;
the duration-relative pass is never reached. -/
theorem c1_amended_eval :
    f_measure [1, 3] [3/2, 19/5] [8/5, 5] (1/20) =
      ⟨0, 0, 0, [], [8/5, 5], [3/2, 19/5]⟩ := by
  with_unfolding_all decide

/-- C2, counterexample: with reference onsets `[0]`, reference offsets
`[2]`, estimated offsets `[2]` and window `0.05`, reference index `0`
and estimated index `0` are matched by the base pass and consumed AGAIN
by the duration-relative pass, so `TP` lists the single estimated
offset twice. -/
theorem c2_counterexample :
    match_events [2] [2] (1/20) = [(0, 0)] ∧
      secondPassHits [0] [2] [2] = [(0, 0)] ∧
      (f_measure [0] [2] [2] (1/20)).TP = [2, 2] := by
  with_unfolding_all decide

/-- C3, counterexample: with reference onsets `[0]`, reference offsets
`[1]`, estimated offsets `[1]` and window `0.05`, the returned sets
satisfy `|TP| + |FP| = 2 ≠ 1 = |estimated|`. -/
theorem c3_counterexample :
    ¬ ((f_measure [0] [1] [1] (1/20)).TP.length +
        (f_measure [0] [1] [1] (1/20)).FP.length = ([1] : List ℚ).length) := by
  with_unfolding_all decide

/-- C3, amended: because the duration-relative pass can only append to
the confusion sets, for non-empty inputs and any window `w ≥ 0` the
sizes satisfy `|TP| + |FP| ≥ |estimated|` and `|TP| + |FN| ≥
|reference|` (equality can fail, as the counterexample shows). -/
theorem c3_confusion_ge (ons off est : List ℚ) (w : ℚ) (hw : 0 ≤ w)
    (h1 : off ≠ []) (h2 : est ≠ []) :
    est.length ≤ (f_measure ons off est w).TP.length +
        (f_measure ons off est w).FP.length ∧
      off.length ≤ (f_measure ons off est w).TP.length +
        (f_measure ons off est w).FN.length := by
  by_cases h3 : match_events off est w = []
  · rw [f_measure_of_matching_nil ons off est w h3]
    simp
  · rw [f_measure_main ons off est w h1 h2 h3]
    constructor
    · have hA := le_length_add_unmatched est.length ((match_events off est w).map Prod.snd)
      simp only [List.length_map] at hA
      unfold tpList fpList
      simp only [List.length_append, List.length_map]
      omega
    · have hA := le_length_add_unmatched off.length ((match_events off est w).map Prod.fst)
      simp only [List.length_map] at hA
      unfold tpList fnList
      simp only [List.length_append, List.length_map]
      omega

theorem c3_confusion_ge_witness :
    (0:ℚ) ≤ 1/20 ∧ ([(5:ℚ)] ≠ []) ∧ ([(7:ℚ)] ≠ []) ∧
      (([7] : List ℚ).length ≤ (f_measure [1] [5] [7] (1/20)).TP.length +
          (f_measure [1] [5] [7] (1/20)).FP.length ∧
        ([5] : List ℚ).length ≤ (f_measure [1] [5] [7] (1/20)).TP.length +
          (f_measure [1] [5] [7] (1/20)).FN.length) :=
  ⟨by norm_num, by with_unfolding_all decide, by with_unfolding_all decide,
    c3_confusion_ge [1] [5] [7] (1/20) (by norm_num) (by with_unfolding_all decide) (by with_unfolding_all decide)⟩

/-- C5: the F-measure computation never divides by zero — either
precision + recall is strictly positive and the returned F-measure is
exactly `2 * P * R / (P + R)`, or precision + recall is zero and the
returned F-measure is `0` (the early returns). -/
theorem c5_no_div_zero (ons off est : List ℚ) (w : ℚ) :
    (0 < (f_measure ons off est w).precision + (f_measure ons off est w).recall' ∧
        (f_measure ons off est w).fmeasure =
          2 * (f_measure ons off est w).precision * (f_measure ons off est w).recall' /
            ((f_measure ons off est w).precision + (f_measure ons off est w).recall')) ∨
      ((f_measure ons off est w).precision + (f_measure ons off est w).recall' = 0 ∧
        (f_measure ons off est w).fmeasure = 0) := by
  by_cases h3 : match_events off est w = []
  · right
    rw [f_measure_of_matching_nil ons off est w h3]
    norm_num
  · have h1 : off ≠ [] := by
      rintro rfl
      exact h3 (match_events_nil_left est w)
    have h2 : est ≠ [] := by
      rintro rfl
      exact h3 (match_events_nil_right off w)
    rw [f_measure_main ons off est w h1 h2 h3]
    left
    exact ⟨add_pos (precisionQ_pos ons off est w h3) (recallQ_pos ons off est w h3), rfl⟩

/-- C7, counterexample: a spectrogram whose single in-band bin exceeds
the high threshold at the last frame (`t = 1` of two frames) produces NO
onset, because the detector's loop runs `t in range(nFrames - 1)` and
never visits the last frame; the claim requires the onset time
`1 * hop / sr` to be emitted. -/
theorem c7_counterexample :
    double_thr_ons_detect 1 2 (fun _ t => if t = 1 then (300:ℚ) else 0)
        0 1 100 200 1 1 = [] ∧
      ((1:ℚ) * 1 / 1) ∉ double_thr_ons_detect 1 2
        (fun _ t => if t = 1 then (300:ℚ) else 0) 0 1 100 200 1 1 := by
  with_unfolding_all decide

/-- C8, counterexample: on a synthetic spectrogram whose only bin
exceeds the high threshold at frame 10 only, and whose value at frame 0
exceeds the low threshold, the output is `[0, 10]`, not the single
onset `[10 * hop / sr]`: frame 0 is NOT excluded from the
local-maximum branch (its left neighbour is the last frame, by Python
negative indexing). -/
theorem c8_counterexample :
    double_thr_ons_detect 1 12
        (fun _ t => if t = 10 then (300:ℚ) else if t = 0 then 150 else 0)
        0 1 100 200 1 1 = [0, 10] ∧
      (100:ℚ) < (fun _ t => if t = 10 then (300:ℚ) else if t = 0 then 150 else 0) 0 0 ∧
      (200:ℚ) < (fun _ t => if t = 10 then (300:ℚ) else if t = 0 then 150 else 0) 0 10 ∧
      double_thr_ons_detect 1 12
        (fun _ t => if t = 10 then (300:ℚ) else if t = 0 then 150 else 0)
        0 1 100 200 1 1 ≠ [10 * 1 / 1] := by
  with_unfolding_all decide

/-- C8, amended: the last frame is excluded from BOTH branches (even a
high-threshold crossing there is silent), and frame 0 takes part in the
local-maximum branch with its left neighbour wrapped to the last frame;
on the synthetic spectrogram the single onset `10 * hop / sr` is
produced when frame 0 does not beat that wrapped neighbour. -/
theorem c8_boundary_amended :
    double_thr_ons_detect 1 12
        (fun _ t => if t = 10 then (300:ℚ) else if t = 11 then 400
          else if t = 0 then 150 else 0)
        0 1 100 200 1 1 = [10 * 1 / 1] ∧
      (200:ℚ) < (fun _ t => if t = 10 then (300:ℚ) else if t = 11 then 400
          else if t = 0 then 150 else 0) 0 11 ∧
      (100:ℚ) < (fun _ t => if t = 10 then (300:ℚ) else if t = 11 then 400
          else if t = 0 then 150 else 0) 0 0 := by
  with_unfolding_all decide

/-- C9: when the base window matching is empty, `f_measure` returns
`(0, 0, 0, [], estimated, reference)` immediately; the
duration-relative second pass cannot contribute any true positive. -/
theorem c9_empty_matching_early_return (ons off est : List ℚ) (w : ℚ)
    (h1 : off ≠ []) (h2 : est ≠ []) (h3 : match_events off est w = []) :
    f_measure ons off est w = ⟨0, 0, 0, [], est, off⟩ :=
  f_measure_of_matching_nil ons off est w h3

theorem c9_empty_matching_early_return_witness :
    ([(10:ℚ)] ≠ []) ∧ ([(20:ℚ)] ≠ []) ∧ match_events [10] [20] (1/20) = [] ∧
      f_measure [0] [10] [20] (1/20) = ⟨0, 0, 0, [], [20], [10]⟩ :=
  ⟨by with_unfolding_all decide, by with_unfolding_all decide, by with_unfolding_all decide,
    c9_empty_matching_early_return [0] [10] [20] (1/20)
      (by with_unfolding_all decide) (by with_unfolding_all decide) (by with_unfolding_all decide)⟩

/-- `find?` over `List.range n` returns exactly the least index below
`n` satisfying the predicate. -/
lemma find?_range_eq_some (p : ℕ → Bool) (n : ℕ) : ∀ j,
    ((List.range n).find? p = some j ↔
      j < n ∧ p j = true ∧ ∀ k < j, p k = false) := by
  induction n with
  | zero => intro j; simp
  | succ n ih =>
    intro j
    rw [List.range_succ, List.find?_append]
    cases h : (List.range n).find? p with
    | some j' =>
      obtain ⟨hj'n, hpj', hmin'⟩ := (ih j').mp h
      simp only [show ∀ o : Option ℕ, (some j').or o = some j' from fun _ => rfl]
      constructor
      · intro heq
        obtain rfl := Option.some.inj heq
        exact ⟨Nat.lt_succ_of_lt hj'n, hpj', hmin'⟩
      · rintro ⟨hjn, hpj, hmin⟩
        rcases Nat.lt_trichotomy j j' with h1 | h1 | h1
        · rw [hmin' j h1] at hpj
          exact absurd hpj (by simp)
        · rw [h1]
        · rw [hmin j' h1] at hpj'
          exact absurd hpj' (by simp)
    | none =>
      have hall : ∀ k < n, p k = false := by
        intro k hk
        have := List.find?_eq_none.mp h k (List.mem_range.mpr hk)
        simpa using this
      simp only [show ∀ o : Option ℕ, Option.or none o = o from fun _ => rfl]
      cases hpn : p n with
      | true =>
        constructor
        · intro heq
          have : some n = some j := by simpa [List.find?, hpn] using heq
          obtain rfl := Option.some.inj this
          exact ⟨Nat.lt_succ_self n, hpn, hall⟩
        · rintro ⟨hjn, hpj, hmin⟩
          have hj : j = n := by
            rcases Nat.lt_succ_iff_lt_or_eq.mp hjn with h1 | h1
            · rw [hall j h1] at hpj
              exact absurd hpj (by simp)
            · exact h1
          subst hj
          simp [List.find?, hpn]
      | false =>
        constructor
        · intro heq
          simp [List.find?, hpn] at heq
        · rintro ⟨hjn, hpj, hmin⟩
          rcases Nat.lt_succ_iff_lt_or_eq.mp hjn with h1 | h1
          · rw [hall j h1] at hpj
            exact absurd hpj (by simp)
          · subst h1
            rw [hpn] at hpj
            exact absurd hpj (by simp)

/-- C2, amended: the duration-relative second pass iterates over ALL
reference offsets — also the ones the base matching already served —
and over all estimated offsets; for each reference index `i`, the FIRST
estimated index within the tolerance `0.5 * (off[i] - onset[i])` is
appended as an additional true positive (so indices can be consumed
several times across the two passes, as the counterexample shows), and
the final `TP` is the base-pass selection followed by these hits. -/
theorem c2_second_pass_amended (ons off est : List ℚ) (w : ℚ) :
    (∀ i j : ℕ, ((i, j) ∈ secondPassHits ons off est ↔
        i < off.length ∧ j < est.length ∧
          |off.getD i 0 - est.getD j 0| ≤ (off.getD i 0 - ons.getD i 0) / 2 ∧
          ∀ k < j, ¬(|off.getD i 0 - est.getD k 0| ≤ (off.getD i 0 - ons.getD i 0) / 2))) ∧
      (off ≠ [] → est ≠ [] → match_events off est w ≠ [] →
        (f_measure ons off est w).TP =
          ((match_events off est w).map Prod.snd).map (fun j => est.getD j 0) ++
            (secondPassHits ons off est).map (fun p => est.getD p.2 0)) := by
  constructor
  · intro i j
    unfold secondPassHits
    rw [List.mem_filterMap]
    constructor
    · rintro ⟨i', hi', hgi'⟩
      rw [List.mem_range] at hi'
      rcases hsm : secondMatch ons off est i' with _ | j'
      · rw [hsm] at hgi'
        exact absurd hgi' (by simp)
      · rw [hsm] at hgi'
        have hpair : (i', j') = (i, j) := by simpa using hgi'
        obtain ⟨rfl, rfl⟩ : i' = i ∧ j' = j :=
          ⟨congrArg Prod.fst hpair, congrArg Prod.snd hpair⟩
        unfold secondMatch at hsm
        obtain ⟨hjn, hpj, hmin⟩ := (find?_range_eq_some _ _ _).mp hsm
        refine ⟨hi', hjn, ?_, ?_⟩
        · rw [← absQ_eq_abs]
          simpa using hpj
        · intro k hk
          rw [← absQ_eq_abs]
          simpa using hmin k hk
    · rintro ⟨hi, hj, habs, hmin⟩
      refine ⟨i, List.mem_range.mpr hi, ?_⟩
      have hsm : secondMatch ons off est i = some j := by
        unfold secondMatch
        apply (find?_range_eq_some _ _ _).mpr
        refine ⟨hj, ?_, ?_⟩
        · have h' := habs
          rw [← absQ_eq_abs] at h'
          exact decide_eq_true h'
        · intro k hk
          have h' := hmin k hk
          rw [← absQ_eq_abs] at h'
          exact decide_eq_false h'
      rw [hsm]
      rfl
  · intro h1 h2 h3
    rw [f_measure_main ons off est w h1 h2 h3]
    rfl

theorem c2_second_pass_amended_witness :
    (f_measure [0] [2] [2] (1/20)).TP =
      ((match_events [2] [2] (1/20)).map Prod.snd).map (fun j => ([2] : List ℚ).getD j 0) ++
        (secondPassHits [0] [2] [2]).map (fun p => ([2] : List ℚ).getD p.2 0) :=
  (c2_second_pass_amended [0] [2] [2] (1/20)).2
    (by with_unfolding_all decide) (by with_unfolding_all decide)
    (by with_unfolding_all decide)

lemma validate_events_ok (l : List FVal)
    (hl : ∀ e ∈ l, ∃ q, e = FVal.finite q ∧ 0 ≤ q ∧ q ≤ MAX_TIME) :
    validate_events l MAX_TIME = .ok () := by
  unfold validate_events
  rw [if_neg]
  intro hany
  obtain ⟨e, he, hbad⟩ := List.any_eq_true.mp hany
  obtain ⟨q, rfl, hq0, hqM⟩ := hl e he
  unfold eventBad at hbad
  rcases Bool.or_eq_true_iff.mp hbad with h | h
  · exact absurd (of_decide_eq_true h) (not_lt.mpr hq0)
  · exact absurd (of_decide_eq_true h) (not_lt.mpr hqM)

/-- C4: if every supplied event time is a valid (finite, in-horizon)
time and the reference or the estimated offset sequence is empty,
scoring emits at least one warning and returns
`(0, 0, 0, [], estimated, reference)` — emptiness never raises. -/
theorem c4_empty_inputs (ons : List ℚ) (off est : List FVal) (w : ℚ)
    (hval : ∀ e ∈ off ++ est, ∃ q, e = FVal.finite q ∧ 0 ≤ q ∧ q ≤ MAX_TIME)
    (hemp : off = [] ∨ est = []) :
    (f_measure_checked ons off est w).1 ≠ [] ∧
      (f_measure_checked ons off est w).2 =
        .ok ⟨0, 0, 0, [], est.map FVal.toRat, off.map FVal.toRat⟩ := by
  have hvoff : ∀ e ∈ off, ∃ q, e = FVal.finite q ∧ 0 ≤ q ∧ q ≤ MAX_TIME :=
    fun e he => hval e (List.mem_append.mpr (Or.inl he))
  have hvest : ∀ e ∈ est, ∃ q, e = FVal.finite q ∧ 0 ≤ q ∧ q ≤ MAX_TIME :=
    fun e he => hval e (List.mem_append.mpr (Or.inr he))
  constructor
  · unfold f_measure_checked validate
    rcases hemp with rfl | rfl <;> simp
  · unfold f_measure_checked validate
    rw [validate_events_ok off hvoff, validate_events_ok est hvest]
    rcases hemp with rfl | rfl <;> simp [f_measure]

theorem c4_empty_inputs_witness :
    (f_measure_checked [] [] [FVal.finite 1] (1/20)).1 ≠ [] ∧
      (f_measure_checked [] [] [FVal.finite 1] (1/20)).2 =
        .ok ⟨0, 0, 0, [], [FVal.finite 1].map FVal.toRat,
          ([] : List FVal).map FVal.toRat⟩ :=
  c4_empty_inputs [] [] [FVal.finite 1] (1/20)
    (by
      intro e he
      simp only [List.nil_append, List.mem_singleton] at he
      subst he
      exact ⟨1, rfl, by norm_num, by norm_num [MAX_TIME]⟩)
    (Or.inl rfl)

/-- C6: when any event time in the reference or estimated offset
sequence is non-finite, negative, or larger than the horizon
`MAX_TIME = 30000`, scoring fails with the `InvalidInput` error — no
result is produced and no value is clamped. -/
theorem c6_invalid_input (ons : List ℚ) (off est : List FVal) (w : ℚ)
    (hbad : ∃ e ∈ off ++ est,
      e.isFinite = false ∨ e.toRat < 0 ∨ MAX_TIME < e.toRat) :
    (f_measure_checked ons off est w).2 = .error "InvalidInput" := by
  obtain ⟨e, he, hb⟩ := hbad
  have hbe : eventBad MAX_TIME e = true := by
    cases e with
    | finite q =>
      unfold eventBad
      rcases hb with h | h | h
      · exact absurd h (by simp [FVal.isFinite])
      · simp only [FVal.toRat] at h
        simp [h]
      · simp only [FVal.toRat] at h
        simp [h]
    | nan => rfl
    | posInf => rfl
    | negInf => rfl
  unfold f_measure_checked validate validate_events
  rcases List.mem_append.mp he with he' | he'
  · rw [if_pos (List.any_eq_true.mpr ⟨e, he', hbe⟩)]
  · by_cases hoffany : off.any (eventBad MAX_TIME) = true
    · rw [if_pos hoffany]
    · rw [if_neg hoffany, if_pos (List.any_eq_true.mpr ⟨e, he', hbe⟩)]

theorem c6_invalid_input_witness :
    (f_measure_checked [] [FVal.finite (-1)] [FVal.finite 1] (1/20)).2 =
      .error "InvalidInput" :=
  c6_invalid_input [] [FVal.finite (-1)] [FVal.finite 1] (1/20)
    ⟨FVal.finite (-1), by simp, Or.inr (Or.inl (by norm_num [FVal.toRat]))⟩

/-- The `i`-th entry of `np.diff(l)` is `l[i+1] - l[i]`. -/
lemma diffs_getD (l : List ℚ) : ∀ i, i + 1 < l.length →
    (List.zipWith (fun a b => b - a) l l.tail).getD i 0 =
      l.getD (i + 1) 0 - l.getD i 0 := by
  induction l with
  | nil => intro i h; simp at h
  | cons a l ih =>
    intro i h
    cases l with
    | nil => simp at h
    | cons b l' =>
      cases i with
      | zero => rfl
      | succ i =>
        have h' : i + 1 < (b :: l').length := by
          simpa using Nat.lt_of_succ_lt_succ h
        simpa using ih i h'

/-- Unrolling the accumulator loop of `double_onsets_correction`: the
fold over the enumerated differences appends exactly the onsets whose
preceding difference passes the threshold. -/
lemma foldl_enumFrom_filter (ons : List ℚ) (c : ℚ) :
    ∀ (ds : List ℚ) (k : ℕ) (acc : List ℚ),
      (List.enumFrom k ds).foldl
          (fun filtered p =>
            if c ≤ p.2 then filtered ++ [ons.getD (p.1 + 1) 0] else filtered) acc
        = acc ++ ((List.range ds.length).filter
              (fun i => decide (c ≤ ds.getD i 0))).map
            (fun i => ons.getD (i + k + 1) 0) := by
  intro ds
  induction ds with
  | nil => intro k acc; simp
  | cons d ds ih =>
    intro k acc
    rw [List.enumFrom_cons, List.foldl_cons, ih (k + 1)]
    have hfm : (List.range (d :: ds).length).filter
          (fun i => decide (c ≤ (d :: ds).getD i 0))
        = (if c ≤ d then [0] else []) ++
            ((List.range ds.length).filter
              (fun i => decide (c ≤ ds.getD i 0))).map Nat.succ := by
      rw [List.length_cons, List.range_succ_eq_map, List.filter_cons]
      rw [List.filter_map]
      have hcomp : ((fun i => decide (c ≤ (d :: ds).getD i 0)) ∘ Nat.succ)
          = fun i => decide (c ≤ ds.getD i 0) := by
        funext i
        rfl
      rw [hcomp]
      by_cases hc : c ≤ d
      · rw [if_pos (by simpa using hc), if_pos hc]
        rfl
      · rw [if_neg (by simpa using hc), if_neg hc]
        rfl
    rw [hfm, List.map_append]
    have hms : (((List.range ds.length).filter
          (fun i => decide (c ≤ ds.getD i 0))).map Nat.succ).map
            (fun i => ons.getD (i + k + 1) 0)
        = ((List.range ds.length).filter
            (fun i => decide (c ≤ ds.getD i 0))).map
          (fun i => ons.getD (i + (k + 1) + 1) 0) := by
      rw [List.map_map]
      exact List.map_congr_left (fun a _ => by
        have : a.succ + k + 1 = a + (k + 1) + 1 := by omega
        simp [Function.comp, this])
    rw [hms]
    by_cases hc : c ≤ d
    · rw [if_pos hc, if_pos hc]
      simp
    · rw [if_neg hc, if_neg hc]
      simp

/-- C10: `double_onsets_correction` keeps the first predicted onset and
then keeps `onsets[i+1]` exactly when the difference of the ORIGINAL
consecutive onsets `onsets[i+1] - onsets[i]` reaches `correction` (not
the difference to the last kept onset); it is undefined on an empty
input. -/
theorem c10_correction_characterization (onsets : List ℚ) (c : ℚ) :
    double_onsets_correction onsets c =
      if onsets = [] then none
      else some (onsets.take 1 ++
        ((List.range (onsets.length - 1)).filter
            (fun i => decide (c ≤ onsets.getD (i + 1) 0 - onsets.getD i 0))).map
          (fun i => onsets.getD (i + 1) 0)) := by
  cases onsets with
  | nil => rfl
  | cons x rest =>
    rw [if_neg (by simp)]
    simp only [double_onsets_correction]
    have henum : (List.zipWith (fun a b => b - a) (x :: rest) rest).enum
        = List.enumFrom 0 (List.zipWith (fun a b => b - a) (x :: rest) rest) := rfl
    rw [henum, foldl_enumFrom_filter]
    have hlen : (List.zipWith (fun a b => b - a) (x :: rest) rest).length
        = rest.length := by
      rw [List.length_zipWith, List.length_cons]
      exact min_eq_right (Nat.le_succ _)
    rw [hlen]
    have hpred : (List.range rest.length).filter
          (fun i => decide (c ≤ (List.zipWith (fun a b => b - a) (x :: rest) rest).getD i 0))
        = (List.range rest.length).filter
          (fun i => decide (c ≤ (x :: rest).getD (i + 1) 0 - (x :: rest).getD i 0)) := by
      apply List.filter_congr
      intro i hi
      have hi' : i + 1 < (x :: rest).length := by
        simpa using Nat.succ_lt_succ (List.mem_range.mp hi)
      rw [show (List.zipWith (fun a b => b - a) (x :: rest) rest).getD i 0
            = (x :: rest).getD (i + 1) 0 - (x :: rest).getD i 0 from
          diffs_getD (x :: rest) i hi']
    rw [hpred]
    have hmap : ((List.range rest.length).filter
          (fun i => decide (c ≤ (x :: rest).getD (i + 1) 0 - (x :: rest).getD i 0))).map
            (fun i => (x :: rest).getD (i + 0 + 1) 0)
        = ((List.range rest.length).filter
          (fun i => decide (c ≤ (x :: rest).getD (i + 1) 0 - (x :: rest).getD i 0))).map
            (fun i => (x :: rest).getD (i + 1) 0) :=
      List.map_congr_left (fun a _ => by rw [Nat.add_zero])
    rw [hmap]
    rfl

/-- Counting a constant-valued map of a filtered list. -/
lemma count_map_const_filter (q : ℕ → Bool) (l : List ℕ) (b c : ℚ) :
    ((l.filter q).map (fun _ => c)).count b
      = if b = c then (l.filter q).length else 0 := by
  have hrepl : (l.filter q).map (fun _ => c)
      = List.replicate (l.filter q).length c := List.map_const _ _
  rw [hrepl, List.count_replicate]
  by_cases h : b = c
  · subst h
    rw [if_pos (by simp), if_pos rfl]
  · rw [if_neg (by simpa using Ne.symm h), if_neg h]

/-- Summing an indicator over `List.range`. -/
lemma sum_map_range_ite (t : ℕ) (A : ℕ → ℕ) : ∀ n,
    ((List.range n).map (fun u => if t = u then A u else 0)).sum
      = if t < n then A t else 0 := by
  intro n
  induction n with
  | zero => simp
  | succ n ih =>
    rw [List.range_succ, List.map_append, List.sum_append, ih]
    by_cases h1 : t < n
    · rw [if_pos h1, if_pos (Nat.lt_succ_of_lt h1)]
      simp [Nat.ne_of_lt h1]
    · by_cases h2 : t = n
      · subst h2
        rw [if_neg h1, if_pos (Nat.lt_succ_self t)]
        simp
      · rw [if_neg h1, if_neg (by omega)]
        simp [h2]

/-- Distinct frames yield distinct emitted times when `sr` and `hop`
are positive. -/
lemma frame_time_inj (sr hop : ℚ) (hsr : 0 < sr) (hhop : 0 < hop)
    (t u : ℕ) (h : (t : ℚ) * hop / sr = (u : ℚ) * hop / sr) : t = u := by
  have h1 : (t : ℚ) * hop = (u : ℚ) * hop := by
    have := congrArg (· * sr) h
    simpa [div_mul_cancel₀, ne_of_gt hsr] using this
  have h2 : (t : ℚ) = (u : ℚ) := mul_right_cancel₀ (ne_of_gt hhop) h1
  exact_mod_cast h2

/-- The Bool condition of the detector matches its Prop reading. -/
lemma qualifiesBin_eq (nBins nFrames : ℕ) (mag : ℕ → ℕ → ℚ)
    (lowThr highThr : ℚ) (t f : ℕ) :
    qualifiesBin nBins nFrames mag lowThr highThr t f
      = decide (f < nBins ∧ (highThr < mag f t ∨ (lowThr < mag f t ∧
          mag f ((t + nFrames - 1) % nFrames) < mag f t ∧
          mag f (t + 1) < mag f t))) := by
  simp [qualifiesBin, Bool.decide_and, Bool.decide_or, Bool.and_assoc]

/-- C7, amended: for every frame `t` the number of copies of the time
stamp `t * hop / sr` in the detector output equals the number of
in-band bins qualifying at `t` — each qualifying `(bin, frame)`
occurrence yields its own onset time, with no deduplication — except
that the loop only visits `t < nFrames - 1` (the last frame is never
scanned) and the left neighbour of frame `0` wraps to the last frame. -/
theorem c7_per_occurrence_amended (nBins nFrames : ℕ) (mag : ℕ → ℕ → ℚ)
    (lowBin highBin : ℕ) (lowThr highThr sr hop : ℚ)
    (hsr : 0 < sr) (hhop : 0 < hop) (t : ℕ) :
    (double_thr_ons_detect nBins nFrames mag lowBin highBin lowThr highThr sr hop).count
        ((t : ℚ) * hop / sr)
      = if t < nFrames - 1 then
          (List.range' lowBin (highBin - lowBin)).countP
            (fun f => decide (f < nBins ∧ (highThr < mag f t ∨
              (lowThr < mag f t ∧ mag f ((t + nFrames - 1) % nFrames) < mag f t ∧
                mag f (t + 1) < mag f t))))
        else 0 := by
  unfold double_thr_ons_detect
  rw [List.count_flatMap]
  have hinner : ∀ u ∈ List.range (nFrames - 1),
      (List.count ((t : ℚ) * hop / sr) ∘ fun u =>
          ((List.range' lowBin (highBin - lowBin)).filter
              (qualifiesBin nBins nFrames mag lowThr highThr u)).map
            (fun _ => (u : ℚ) * hop / sr)) u
        = (fun u => if t = u then
            ((List.range' lowBin (highBin - lowBin)).filter
              (qualifiesBin nBins nFrames mag lowThr highThr u)).length
          else 0) u := by
    intro u _
    simp only [Function.comp]
    rw [count_map_const_filter]
    by_cases h : t = u
    · subst h
      rw [if_pos rfl, if_pos rfl]
    · rw [if_neg (fun heq => h (frame_time_inj sr hop hsr hhop t u heq)), if_neg h]
  rw [List.map_congr_left hinner, sum_map_range_ite]
  by_cases ht : t < nFrames - 1
  · rw [if_pos ht, if_pos ht, List.countP_eq_length_filter]
    exact congrArg List.length (List.filter_congr (fun f _ =>
      qualifiesBin_eq nBins nFrames mag lowThr highThr t f))
  · rw [if_neg ht, if_neg ht]

theorem c7_per_occurrence_amended_witness :
    (0 : ℚ) < 1 ∧
      (double_thr_ons_detect 1 3 (fun _ u => if u = 1 then (5:ℚ) else 0)
          0 1 1 3 1 1).count ((1 : ℚ) * 1 / 1)
        = if 1 < 3 - 1 then
            (List.range' 0 (1 - 0)).countP
              (fun f => decide (f < 1 ∧
                ((3:ℚ) < (fun _ u => if u = 1 then (5:ℚ) else 0) f 1 ∨
                  ((1:ℚ) < (fun _ u => if u = 1 then (5:ℚ) else 0) f 1 ∧
                    (fun _ u => if u = 1 then (5:ℚ) else 0) f ((1 + 3 - 1) % 3) <
                      (fun _ u => if u = 1 then (5:ℚ) else 0) f 1 ∧
                    (fun _ u => if u = 1 then (5:ℚ) else 0) f (1 + 1) <
                      (fun _ u => if u = 1 then (5:ℚ) else 0) f 1))))
          else 0 :=
  ⟨by norm_num,
    c7_per_occurrence_amended 1 3 (fun _ u => if u = 1 then (5:ℚ) else 0)
      0 1 1 3 1 1 (by norm_num) (by norm_num) 1⟩

end ChicksOnset
